import Mathlib

/-!
Shallow embedding of `twitter_text_utils.py` (class `TwitterTextValidator` and
its module-level convenience functions).  Text is modelled as `List Char`
(a list of Unicode scalar values, exactly Python's `str`).  All machine
integers involved are Python arbitrary-precision ints, modelled as `Nat`
(lengths, weights) and `Int` (quantities that can go negative, such as the
`available_weight` budget in `truncate_to_limit`).
-/

namespace TwitterText

/-- Set of code points matched by Python's `\s` (and `str.isspace` /
`str.split()` / `str.strip()`): the Unicode whitespace code points. -/
def py_isspace (c : Char) : Bool :=
  let n := c.toNat
  (0x09 ≤ n && n ≤ 0x0D) || (0x1C ≤ n && n ≤ 0x1F) || n == 0x20 || n == 0x85 ||
  n == 0xA0 || n == 0x1680 || (0x2000 ≤ n && n ≤ 0x200A) || n == 0x2028 ||
  n == 0x2029 || n == 0x202F || n == 0x205F || n == 0x3000

/-- The `WEIGHT_1_RANGES` table from the source: closed code-point intervals
whose characters weigh 1; every other character weighs 2. -/
def WEIGHT_1_RANGES : List (Nat × Nat) :=
  [(0x0000, 0x10FF), (0x2000, 0x200D), (0x2010, 0x201F), (0x2032, 0x2037)]

/-- The `INVISIBLE_CHARS` list from the source (removed by
`remove_invisible_chars`). -/
def INVISIBLE_CHARS : List Char :=
  ['\u200B', '\u200C', '\u200E', '\u200F', '\u2060', '\uFEFF', '\u2028',
   '\u2029', '\u00AD']

/-- `TwitterTextValidator.get_character_weight`: 1 when the code point falls
in one of `WEIGHT_1_RANGES`, otherwise 2. -/
def get_character_weight (c : Char) : Nat :=
  if WEIGHT_1_RANGES.any (fun r => decide (r.1 ≤ c.toNat) && decide (c.toNat ≤ r.2))
  then 1 else 2

/-- Character class `[^\s<>"]` of `URL_PATTERN = https?://[^\s<>"]+`. -/
def url_char (c : Char) : Bool :=
  !py_isspace c && c != '<' && c != '>' && c != '"'

/-- Length of the scheme part of `URL_PATTERN` when it matches at the head of
`l` (the regex alternative `https://` is tried before backtracking to
`http://`, exactly like the greedy `s?`). -/
def scheme_length (l : List Char) : Option Nat :=
  if List.isPrefixOf "https://".toList l then some 8
  else if List.isPrefixOf "http://".toList l then some 7
  else none

/-- `URL_PATTERN` matched at position 0 (Python's `URL_PATTERN.match`):
returns the number of characters consumed by the (greedy) match, i.e. the
scheme plus a maximal nonempty run of `url_char`s. -/
def match_url (l : List Char) : Option Nat :=
  match scheme_length l with
  | none => none
  | some k =>
    let run := (l.drop k).takeWhile url_char
    if run.length = 0 then none else some (k + run.length)

/-- Structural worker for `scan_urls`.  `fuel` is only a termination device:
each step consumes at least one character, so any `fuel ≥ length` gives the
same answer (`scan_urls_go_congr`), and the fuel-exhaustion case is never
reached from `scan_urls`. -/
def scan_urls_go : Nat → List Char → List Char × Nat
  | 0, l => (l, 0)
  | _ + 1, [] => ([], 0)
  | fuel + 1, c :: cs =>
    match match_url (c :: cs) with
    | some n =>
      ((scan_urls_go fuel ((c :: cs).drop n)).1,
       (scan_urls_go fuel ((c :: cs).drop n)).2 + 1)
    | none =>
      (c :: (scan_urls_go fuel cs).1, (scan_urls_go fuel cs).2)

/-- Left-to-right non-overlapping scan of URL matches, as performed by
`URL_PATTERN.findall` / `URL_PATTERN.sub('', text)`: returns the text with
every matched span deleted, together with the number of matches. -/
def scan_urls (l : List Char) : List Char × Nat :=
  scan_urls_go l.length l

/-- Result record of `calculate_weighted_length` (the dict with keys
`weighted_length`, `url_count`, `char_breakdown`). -/
structure LengthInfo where
  weighted_length : Nat
  url_count : Nat
  weight_1 : Nat
  weight_2 : Nat
  urls : Nat
deriving DecidableEq, Repr

/-- `TwitterTextValidator.calculate_weighted_length`: remove URL matches,
count remaining characters by weight, charge 23 per URL. -/
def calculate_weighted_length (text : List Char) : LengthInfo :=
  if text = [] then ⟨0, 0, 0, 0, 0⟩ else
  let s := scan_urls text
  let weight_1_count := (s.1.filter (fun c => get_character_weight c == 1)).length
  let weight_2_count := (s.1.filter (fun c => !(get_character_weight c == 1))).length
  let url_chars := s.2 * 23
  { weighted_length := weight_1_count + weight_2_count * 2 + url_chars
    url_count := s.2
    weight_1 := weight_1_count
    weight_2 := weight_2_count
    urls := url_chars }

/-- Module-level `get_weighted_length` convenience function: note that it
calls `calculate_weighted_length` directly, without normalizing. -/
def get_weighted_length (text : List Char) : Nat :=
  (calculate_weighted_length text).weighted_length

/-- Canonical composition table of `unicodedata.normalize('NFC', ...)`,
restricted to the character material occurring in this development: the one
canonical pair LATIN SMALL LETTER E + COMBINING ACUTE ACCENT, which composes
to U+00E9.  Every other character appearing in the concrete inputs below
(ASCII, CJK, the whitespace and invisible code points, the ellipsis) is
NFC-invariant and composes with nothing, so the table is faithful on them. -/
def compose_pair (a b : Char) : Option Char :=
  if a = 'e' ∧ b = '\u0301' then some '\u00E9' else none

/-- Model of `unicodedata.normalize('NFC', text)` over the restricted
composition table `compose_pair`: canonical composition of adjacent pairs,
left to right; a character with no entry in the table (in particular any
intervening starter such as a zero-width non-joiner) blocks composition,
exactly as in UAX #15. -/
def nfc_run (a : Char) : List Char → List Char
  | [] => [a]
  | b :: rest =>
    match compose_pair a b with
    | some d => nfc_run d rest
    | none => a :: nfc_run b rest

/-- Model of `unicodedata.normalize('NFC', text)`; see `nfc_run` and
`compose_pair`. -/
def nfc : List Char → List Char
  | [] => []
  | a :: rest => nfc_run a rest

/-- Model of `unicodedata.category(c).startswith('C')`: the control (Cc),
format (Cf), surrogate (Cs) and private-use (Co) code points.  (The unassigned
category Cn is omitted; no statement below depends on an unassigned code
point.) -/
def is_category_C (c : Char) : Bool :=
  let n := c.toNat
  -- Cc
  n < 0x20 || (0x7F ≤ n && n ≤ 0x9F) ||
  -- Cf
  n == 0xAD || (0x600 ≤ n && n ≤ 0x605) || n == 0x61C || n == 0x6DD ||
  n == 0x70F || n == 0x8E2 || n == 0x180E || (0x200B ≤ n && n ≤ 0x200F) ||
  (0x202A ≤ n && n ≤ 0x202E) || (0x2060 ≤ n && n ≤ 0x2064) ||
  (0x2066 ≤ n && n ≤ 0x206F) || n == 0xFEFF || (0xFFF9 ≤ n && n ≤ 0xFFFB) ||
  n == 0x110BD || n == 0x110CD || (0x13430 ≤ n && n ≤ 0x1343F) ||
  (0x1BCA0 ≤ n && n ≤ 0x1BCA3) || (0x1D173 ≤ n && n ≤ 0x1D17A) ||
  n == 0xE0001 || (0xE0020 ≤ n && n ≤ 0xE007F) ||
  -- Cs
  (0xD800 ≤ n && n ≤ 0xDFFF) ||
  -- Co
  (0xE000 ≤ n && n ≤ 0xF8FF) || (0xF0000 ≤ n && n ≤ 0xFFFFD) ||
  (0x100000 ≤ n && n ≤ 0x10FFFD)

/-- The whitespace characters preserved by `remove_invisible_chars`
(Python's `char not in '\n\r\t '` test). -/
def kept_whitespace : List Char := ['\n', '\r', '\t', ' ']

/-- `TwitterTextValidator.remove_invisible_chars`: delete each character of
`INVISIBLE_CHARS` (a chain of `str.replace(char, '')`), then drop every
remaining character of Unicode category C other than newline, carriage
return, tab and space. -/
def remove_invisible_chars (text : List Char) : List Char :=
  if text = [] then text else
  let t1 := INVISIBLE_CHARS.foldl (fun acc ch => acc.filter (fun c => c != ch)) text
  t1.filter (fun c => !(is_category_C c && !(kept_whitespace.contains c)))

/-- `re.sub(r'\s+', ' ', text)`: replace every maximal run of whitespace by a
single ASCII space (the space is emitted at the last character of the run,
which yields the same string). -/
def collapse_whitespace : List Char → List Char
  | [] => []
  | a :: rest =>
    if py_isspace a then
      match rest with
      | [] => [' ']
      | b :: _ => if py_isspace b then collapse_whitespace rest
                  else ' ' :: collapse_whitespace rest
    else a :: collapse_whitespace rest

/-- `str.lstrip()` (with no argument: strips `py_isspace` characters). -/
def strip_left (l : List Char) : List Char := l.dropWhile py_isspace

/-- `str.rstrip()` (with no argument: strips `py_isspace` characters). -/
def strip_right (l : List Char) : List Char :=
  (l.reverse.dropWhile py_isspace).reverse

/-- `str.strip()`. -/
def py_strip (l : List Char) : List Char := strip_right (strip_left l)

/-- `TwitterTextValidator.normalize_text`: NFC, invisible-character removal,
whitespace collapsing, trimming.  Empty input returns unchanged. -/
def normalize_text (text : List Char) : List Char :=
  if text = [] then text else
  py_strip (collapse_whitespace (remove_invisible_chars (nfc text)))

/-- Result record of `validate_tweet_length`. -/
structure ValidationResult where
  is_valid : Bool
  normalized_text : List Char
  weighted_length : Nat
  chars_over : Nat
  max_length : Nat
  url_count : Nat
  weight_1 : Nat
  weight_2 : Nat
  urls : Nat
deriving DecidableEq, Repr

/-- `TwitterTextValidator.validate_tweet_length`.  `chars_over` is Python's
`max(0, weighted_length - max_length)`, which over `Nat` is exactly truncated
subtraction. -/
def validate_tweet_length (text : List Char) (max_length : Nat := 280) :
    ValidationResult :=
  let normalized_text := normalize_text text
  let info := calculate_weighted_length normalized_text
  { is_valid := decide (info.weighted_length ≤ max_length)
    normalized_text := normalized_text
    weighted_length := info.weighted_length
    chars_over := info.weighted_length - max_length
    max_length := max_length
    url_count := info.url_count
    weight_1 := info.weight_1
    weight_2 := info.weight_2
    urls := info.urls }

/-- `str.split('\n')`: split at every newline, keeping empty pieces. -/
def split_newline : List Char → List (List Char)
  | [] => [[]]
  | c :: cs =>
    match split_newline cs with
    | [] => [[c]]
    | h :: t => if c = '\n' then [] :: h :: t else (c :: h) :: t

/-- Structural worker for `py_split`; as with `scan_urls_go`, `fuel` is a
termination device only and any `fuel ≥ length` yields the same split. -/
def py_split_go : Nat → List Char → List (List Char)
  | 0, _ => []
  | fuel + 1, l =>
    match l.dropWhile py_isspace with
    | [] => []
    | c :: cs =>
      ((c :: cs).takeWhile (fun x => !py_isspace x)) ::
        py_split_go fuel
          ((c :: cs).drop ((c :: cs).takeWhile (fun x => !py_isspace x)).length)

/-- `str.split()` with no argument: split on runs of whitespace, discarding
empty pieces. -/
def py_split (l : List Char) : List (List Char) :=
  py_split_go l.length l

/-- `sep.join(words)` for a one-character separator `sep`. -/
def py_join (sep : Char) : List (List Char) → List Char
  | [] => []
  | [w] => w
  | w :: ws => w ++ sep :: py_join sep ws

/-- The trailing-URL detection of `truncate_to_limit` (its lines 206-227):
returns `some (main_text, trailing_url, potential_url)` when the normalized
text's last line (if it has at least two lines) or last whitespace-delimited
word (if single-line with at least two words) matches `URL_PATTERN` at its
start; `none` otherwise. -/
def trailing_split (normalized_text : List Char) :
    Option (List Char × List Char × List Char) :=
  let lines := split_newline normalized_text
  if 2 ≤ lines.length then
    let potential_url := py_strip (lines.getLastD [])
    if (match_url potential_url).isSome then
      some (py_join '\n' lines.dropLast, '\n' :: potential_url,
            potential_url)
    else none
  else
    let words := py_split normalized_text
    if 2 ≤ words.length then
      let potential_url := words.getLastD []
      if (match_url potential_url).isSome then
        some (py_join ' ' words.dropLast, ' ' :: potential_url,
              potential_url)
      else none
    else none

/-- The `while left <= right` binary-search loop of `truncate_to_limit`,
with Python's integer arithmetic: `right` may become `-1`, so it lives in
`Int`; `left` and `best` stay nonnegative throughout and live in `Nat`.
The `fuel` argument is only a structural-termination device: every iteration
shrinks `right + 1 - left` by at least one, so the callers' fuel
`len + 1` is never exhausted before `left > right`. -/
def bs_go (f : Nat → Int) (target : Int) :
    Nat → Nat → Int → Nat → Nat
  | 0, _, _, best => best
  | fuel + 1, left, right, best =>
    if (left : Int) ≤ right then
      let mid := ((left : Int) + right).toNat / 2
      if f mid ≤ target then bs_go f target fuel (mid + 1) right mid
      else bs_go f target fuel left ((mid : Int) - 1) best
    else best

/-- Binary search for the largest prefix length whose weight fits `target`,
as `truncate_to_limit` runs it: `left, right = 0, len`; `best = 0`. -/
def binary_search_best (f : Nat → Int) (target : Int) (len : Nat) : Nat :=
  bs_go f target (len + 1) 0 (len : Int) 0

/-- Result record of `truncate_to_limit`. -/
structure TruncationResult where
  text : List Char
  was_truncated : Bool
  final_length : Nat
deriving DecidableEq, Repr

/-- `TwitterTextValidator.truncate_to_limit` with the default ellipsis `…`. -/
def truncate_to_limit (text : List Char) (max_length : Nat := 280)
    (ellipsis : List Char := ['…']) : TruncationResult :=
  let normalized_text := normalize_text text
  let validation := validate_tweet_length normalized_text max_length
  if validation.is_valid then
    { text := normalized_text
      was_truncated := false
      final_length := validation.weighted_length }
  else
    match trailing_split normalized_text with
    | some (main_text, trailing_url, potential_url) =>
      let url_weight := (calculate_weighted_length trailing_url).weighted_length
      let ellipsis_weight := (calculate_weighted_length ellipsis).weighted_length
      let available_weight : Int :=
        (max_length : Int) - url_weight - ellipsis_weight
      if available_weight ≤ 0 then
        { text := potential_url
          was_truncated := true
          final_length := (calculate_weighted_length potential_url).weighted_length }
      else
        let best_pos := binary_search_best
          (fun k => ((calculate_weighted_length (main_text.take k)).weighted_length : Int))
          available_weight main_text.length
        let truncated_main := strip_right (main_text.take best_pos)
        let truncated_text :=
          if truncated_main = [] then py_strip trailing_url
          else truncated_main ++ ellipsis ++ trailing_url
        { text := truncated_text
          was_truncated := true
          final_length := (calculate_weighted_length truncated_text).weighted_length }
    | none =>
      let ellipsis_weight := (calculate_weighted_length ellipsis).weighted_length
      let target_length : Int := (max_length : Int) - ellipsis_weight
      let best_pos := binary_search_best
        (fun k => ((calculate_weighted_length (normalized_text.take k)).weighted_length : Int))
        target_length normalized_text.length
      let truncated_text := strip_right (normalized_text.take best_pos) ++ ellipsis
      { text := truncated_text
        was_truncated := true
        final_length := (calculate_weighted_length truncated_text).weighted_length }

/-- Module-level `safe_truncate_post`. -/
def safe_truncate_post (text : List Char) (max_length : Nat := 280) : List Char :=
  (truncate_to_limit text max_length).text

/-- Module-level `is_tweet_too_long`. -/
def is_tweet_too_long (text : List Char) (max_length : Nat := 280) : Bool :=
  !(validate_tweet_length text max_length).is_valid

/-- Whitespace normal form: no two adjacent whitespace characters.  Together
with "every whitespace character is an ASCII space" this characterizes the
strings on which `collapse_whitespace` is the identity. -/
def single_spaced : List Char → Bool
  | [] => true
  | [_] => true
  | a :: b :: rest => !(py_isspace a && py_isspace b) && single_spaced (b :: rest)

/-! ### Auxiliary unfolding lemmas for the fuel-based workers -/

theorem isPrefixOf_eq_true_iff (s l : List Char) :
    List.isPrefixOf s l = true ↔ s <+: l :=
  List.isPrefixOf_iff_prefix

theorem scheme_length_le (l : List Char) (k : Nat) (h : scheme_length l = some k) :
    7 ≤ k ∧ k ≤ l.length := by
  unfold scheme_length at h
  split at h
  · rename_i hp
    cases h
    exact ⟨by omega, by simpa using ((isPrefixOf_eq_true_iff _ _).mp hp).length_le⟩
  · split at h
    · rename_i hp
      cases h
      exact ⟨by omega, by simpa using ((isPrefixOf_eq_true_iff _ _).mp hp).length_le⟩
    · cases h

theorem match_url_bounds (l : List Char) (n : Nat) (h : match_url l = some n) :
    1 ≤ n ∧ n ≤ l.length := by
  unfold match_url at h
  cases hs : scheme_length l with
  | none => rw [hs] at h; cases h
  | some k =>
    rw [hs] at h
    simp only at h
    split at h
    · cases h
    · rename_i hrun
      cases h
      have hk := scheme_length_le l k hs
      have h1 : (((l.drop k).takeWhile url_char)).length ≤ (l.drop k).length :=
        (List.takeWhile_sublist _).length_le
      have h2 : (l.drop k).length = l.length - k := List.length_drop ..
      omega

/-- Head of a nonempty `dropWhile` result fails the predicate. -/
theorem dropWhile_head_false {α : Type} (p : α → Bool) :
    ∀ (l : List α) (c : α) (cs : List α), l.dropWhile p = c :: cs → p c = false := by
  intro l
  induction l with
  | nil => intro c cs h; simp [List.dropWhile] at h
  | cons a as ih =>
    intro c cs h
    rw [List.dropWhile_cons] at h
    by_cases hp : p a = true
    · rw [if_pos hp] at h
      exact ih c cs h
    · rw [if_neg hp] at h
      cases h
      simpa using hp

theorem scan_urls_go_congr (fuel₁ fuel₂ : Nat) (l : List Char)
    (h₁ : l.length ≤ fuel₁) (h₂ : l.length ≤ fuel₂) :
    scan_urls_go fuel₁ l = scan_urls_go fuel₂ l := by
  induction fuel₁ generalizing l fuel₂ with
  | zero =>
    have hl : l = [] := by
      cases l with
      | nil => rfl
      | cons a as => simp at h₁
    subst hl
    cases fuel₂ <;> rfl
  | succ fuel ih =>
    cases l with
    | nil => cases fuel₂ <;> rfl
    | cons c cs =>
      cases fuel₂ with
      | zero => simp at h₂
      | succ fuel' =>
        simp only [List.length_cons] at h₁ h₂
        simp only [scan_urls_go]
        cases hm : match_url (c :: cs) with
        | some n =>
          have hb := match_url_bounds _ _ hm
          simp only [List.length_cons] at hb
          show ((scan_urls_go fuel ((c :: cs).drop n)).1,
                (scan_urls_go fuel ((c :: cs).drop n)).2 + 1) =
              ((scan_urls_go fuel' ((c :: cs).drop n)).1,
               (scan_urls_go fuel' ((c :: cs).drop n)).2 + 1)
          rw [ih fuel' ((c :: cs).drop n)
            (by simp only [List.length_drop, List.length_cons]; omega)
            (by simp only [List.length_drop, List.length_cons]; omega)]
        | none =>
          show (c :: (scan_urls_go fuel cs).1, (scan_urls_go fuel cs).2) =
              (c :: (scan_urls_go fuel' cs).1, (scan_urls_go fuel' cs).2)
          rw [ih fuel' cs (by omega) (by omega)]

theorem scan_urls_nil : scan_urls [] = ([], 0) := rfl

theorem scan_urls_cons_some (c : Char) (cs : List Char) (n : Nat)
    (h : match_url (c :: cs) = some n) :
    scan_urls (c :: cs) =
      ((scan_urls ((c :: cs).drop n)).1, (scan_urls ((c :: cs).drop n)).2 + 1) := by
  have hb := match_url_bounds _ _ h
  show scan_urls_go (cs.length + 1) (c :: cs) = _
  rw [scan_urls_go, h]
  show ((scan_urls_go cs.length ((c :: cs).drop n)).1,
        (scan_urls_go cs.length ((c :: cs).drop n)).2 + 1) = _
  rw [scan_urls_go_congr cs.length ((c :: cs).drop n).length ((c :: cs).drop n)
    (by simp only [List.length_drop, List.length_cons]
        simp only [List.length_cons] at hb
        omega)
    (Nat.le_refl _)]
  rfl

theorem scan_urls_cons_none (c : Char) (cs : List Char)
    (h : match_url (c :: cs) = none) :
    scan_urls (c :: cs) = ((c :: (scan_urls cs).1, (scan_urls cs).2)) := by
  show scan_urls_go (cs.length + 1) (c :: cs) = _
  rw [scan_urls_go, h]
  rfl

theorem py_split_go_congr (fuel₁ fuel₂ : Nat) (l : List Char)
    (h₁ : l.length ≤ fuel₁) (h₂ : l.length ≤ fuel₂) :
    py_split_go fuel₁ l = py_split_go fuel₂ l := by
  induction fuel₁ generalizing l fuel₂ with
  | zero =>
    have hl : l = [] := by
      cases l with
      | nil => rfl
      | cons a as => simp at h₁
    subst hl
    cases fuel₂ <;> rfl
  | succ fuel ih =>
    cases fuel₂ with
    | zero =>
      have hl : l = [] := by
        cases l with
        | nil => rfl
        | cons a as => simp at h₂
      subst hl
      rfl
    | succ fuel' =>
      simp only [py_split_go]
      cases hd : l.dropWhile py_isspace with
      | nil => rfl
      | cons c cs =>
        have hlen : (c :: cs).length ≤ l.length :=
          hd ▸ (List.dropWhile_sublist (l := l) py_isspace).length_le
        have hc : py_isspace c = false := dropWhile_head_false _ l c cs hd
        have hw : 0 < ((c :: cs).takeWhile (fun x => !py_isspace x)).length := by
          rw [List.takeWhile_cons]
          simp [hc]
        simp only [List.length_cons] at hlen
        show List.takeWhile (fun x => !py_isspace x) (c :: cs) ::
            py_split_go fuel ((c :: cs).drop
              (List.takeWhile (fun x => !py_isspace x) (c :: cs)).length) =
          List.takeWhile (fun x => !py_isspace x) (c :: cs) ::
            py_split_go fuel' ((c :: cs).drop
              (List.takeWhile (fun x => !py_isspace x) (c :: cs)).length)
        rw [ih fuel' ((c :: cs).drop
              ((c :: cs).takeWhile (fun x => !py_isspace x)).length)
          (by simp only [List.length_drop, List.length_cons]; omega)
          (by simp only [List.length_drop, List.length_cons]; omega)]

theorem py_split_eq_nil (l : List Char) (h : l.dropWhile py_isspace = []) :
    py_split l = [] := by
  show py_split_go l.length l = []
  cases hl : l.length with
  | zero => rfl
  | succ m =>
    rw [py_split_go, h]

theorem py_split_eq_cons (l : List Char) (c : Char) (cs : List Char)
    (h : l.dropWhile py_isspace = c :: cs) :
    py_split l =
      ((c :: cs).takeWhile (fun x => !py_isspace x)) ::
        py_split ((c :: cs).drop
          ((c :: cs).takeWhile (fun x => !py_isspace x)).length) := by
  have hlen : (c :: cs).length ≤ l.length :=
    h ▸ (List.dropWhile_sublist (l := l) py_isspace).length_le
  have hc : py_isspace c = false := dropWhile_head_false _ l c cs h
  have hw : 0 < ((c :: cs).takeWhile (fun x => !py_isspace x)).length := by
    rw [List.takeWhile_cons]
    simp [hc]
  show py_split_go l.length l = _
  cases hl : l.length with
  | zero =>
    exfalso
    simp only [List.length_cons] at hlen
    omega
  | succ m =>
    rw [py_split_go, h]
    show List.takeWhile (fun x => !py_isspace x) (c :: cs) ::
        py_split_go m ((c :: cs).drop
          (List.takeWhile (fun x => !py_isspace x) (c :: cs)).length) = _
    rw [py_split_go_congr m ((c :: cs).drop
          ((c :: cs).takeWhile (fun x => !py_isspace x)).length).length _
      (by simp only [List.length_drop, List.length_cons] at *; omega)
      (Nat.le_refl _)]
    rfl

/-! ### Weighted length: unfolding equations -/

theorem get_character_weight_cases (c : Char) :
    get_character_weight c = 1 ∨ get_character_weight c = 2 := by
  unfold get_character_weight
  split
  · exact Or.inl rfl
  · exact Or.inr rfl

theorem get_weighted_length_eq (t : List Char) :
    get_weighted_length t =
      ((scan_urls t).1.filter (fun c => get_character_weight c == 1)).length +
      ((scan_urls t).1.filter (fun c => !(get_character_weight c == 1))).length * 2 +
      (scan_urls t).2 * 23 := by
  unfold get_weighted_length calculate_weighted_length
  split
  · rename_i h
    subst h
    rfl
  · rfl

theorem gwl_nil : get_weighted_length [] = 0 := rfl

theorem gwl_cons_none (c : Char) (cs : List Char) (h : match_url (c :: cs) = none) :
    get_weighted_length (c :: cs) = get_character_weight c + get_weighted_length cs := by
  rw [get_weighted_length_eq, get_weighted_length_eq]
  simp only [scan_urls_cons_none c cs h, List.filter_cons]
  rcases get_character_weight_cases c with h1 | h1 <;>
    simp only [h1] <;> simp <;> omega

theorem gwl_cons_some (c : Char) (cs : List Char) (n : Nat)
    (h : match_url (c :: cs) = some n) :
    get_weighted_length (c :: cs) = 23 + get_weighted_length ((c :: cs).drop n) := by
  rw [get_weighted_length_eq, get_weighted_length_eq]
  simp only [scan_urls_cons_some c cs n h]
  omega

/-! ### Appending one character never decreases the weighted length -/

theorem prefix_snoc_of_le {s l : List Char} (c : Char)
    (h : s <+: l ++ [c]) (hlen : s.length ≤ l.length) : s <+: l :=
  List.prefix_of_prefix_length_le h (List.prefix_append l [c]) hlen

theorem scheme_length_snoc (l : List Char) (c : Char) (k : Nat)
    (h : scheme_length l = some k) (hl : 8 ≤ l.length) :
    scheme_length (l ++ [c]) = some k := by
  unfold scheme_length at h ⊢
  split at h
  · rename_i hp
    cases h
    rw [if_pos ((isPrefixOf_eq_true_iff _ _).mpr
      (((isPrefixOf_eq_true_iff _ _).mp hp).trans (List.prefix_append l [c])))]
  · split at h
    · rename_i hp1 hp2
      cases h
      rw [if_neg, if_pos ((isPrefixOf_eq_true_iff _ _).mpr
        (((isPrefixOf_eq_true_iff _ _).mp hp2).trans (List.prefix_append l [c])))]
      intro hcon
      exact hp1 ((isPrefixOf_eq_true_iff _ _).mpr
        (prefix_snoc_of_le c ((isPrefixOf_eq_true_iff _ _).mp hcon) (by simpa using hl)))
    · cases h

theorem match_url_eq_of_scheme (l : List Char) (k : Nat)
    (h : scheme_length l = some k) :
    match_url l = (if ((l.drop k).takeWhile url_char).length = 0 then none
      else some (k + ((l.drop k).takeWhile url_char).length)) := by
  unfold match_url
  rw [h]

theorem match_url_some_snoc_lt (l : List Char) (c : Char) (n : Nat)
    (h : match_url l = some n) (hlt : n < l.length) :
    match_url (l ++ [c]) = some n := by
  cases hs : scheme_length l with
  | none =>
    unfold match_url at h
    rw [hs] at h
    cases h
  | some k =>
    rw [match_url_eq_of_scheme l k hs] at h
    split at h
    · cases h
    · rename_i hrun
      cases h
      have hk := scheme_length_le l k hs
      have hdl := List.length_drop k l
      rw [match_url_eq_of_scheme (l ++ [c]) k (scheme_length_snoc l c k hs (by omega))]
      have hdrop : (l ++ [c]).drop k = l.drop k ++ [c] :=
        List.drop_append_of_le_length (by omega)
      have hstop : ¬(((l.drop k).takeWhile url_char).length = (l.drop k).length) := by
        omega
      rw [hdrop, List.takeWhile_append, if_neg hstop, if_neg hrun]

theorem match_url_some_snoc_full (l : List Char) (c : Char)
    (h : match_url l = some l.length) :
    ∃ m, match_url (l ++ [c]) = some m := by
  cases hs : scheme_length l with
  | none =>
    unfold match_url at h
    rw [hs] at h
    cases h
  | some k =>
    rw [match_url_eq_of_scheme l k hs] at h
    split at h
    · cases h
    · rename_i hrun
      have hlen : k + ((l.drop k).takeWhile url_char).length = l.length :=
        Option.some.inj h
      have hk := scheme_length_le l k hs
      have hdl := List.length_drop k l
      rw [match_url_eq_of_scheme (l ++ [c]) k (scheme_length_snoc l c k hs (by omega))]
      have hdrop : (l ++ [c]).drop k = l.drop k ++ [c] :=
        List.drop_append_of_le_length (by omega)
      have hfull : ((l.drop k).takeWhile url_char).length = (l.drop k).length := by
        omega
      rw [hdrop, List.takeWhile_append, if_pos hfull]
      refine ⟨k + (l.drop k ++ [c].takeWhile url_char).length, ?_⟩
      rw [if_neg]
      simp only [List.length_append]
      omega

theorem match_url_none_snoc (l : List Char) (c : Char)
    (h : match_url l = none) :
    match_url (l ++ [c]) = none ∨
      ((l = "http://".toList ∨ l = "https://".toList) ∧
        ∃ m, match_url (l ++ [c]) = some m) := by
  cases hs' : scheme_length (l ++ [c]) with
  | none =>
    refine Or.inl ?_
    unfold match_url
    rw [hs']
  | some k =>
    rw [match_url_eq_of_scheme (l ++ [c]) k hs']
    have hsch : (k = 8 ∧ "https://".toList <+: l ++ [c]) ∨
        (k = 7 ∧ "http://".toList <+: l ++ [c]) := by
      unfold scheme_length at hs'
      split at hs'
      · rename_i hp
        cases hs'
        exact Or.inl ⟨rfl, (isPrefixOf_eq_true_iff _ _).mp hp⟩
      · split at hs'
        · rename_i hp
          cases hs'
          exact Or.inr ⟨rfl, (isPrefixOf_eq_true_iff _ _).mp hp⟩
        · cases hs'
    by_cases hlen : k ≤ l.length
    · -- the scheme already lay inside `l`
      have hsl : scheme_length l = some k := by
        unfold scheme_length
        rcases hsch with ⟨hk, hp⟩ | ⟨hk, hp⟩
        · subst hk
          rw [if_pos ((isPrefixOf_eq_true_iff _ _).mpr
            (prefix_snoc_of_le c hp (by simpa using hlen)))]
        · subst hk
          rw [if_neg, if_pos ((isPrefixOf_eq_true_iff _ _).mpr
            (prefix_snoc_of_le c hp (by simpa using hlen)))]
          intro hcon
          have h8 : scheme_length (l ++ [c]) = some 8 := by
            unfold scheme_length
            rw [if_pos ((isPrefixOf_eq_true_iff _ _).mpr
              (((isPrefixOf_eq_true_iff _ _).mp hcon).trans (List.prefix_append l [c])))]
          rw [hs'] at h8
          cases h8
      rw [match_url_eq_of_scheme l k hsl] at h
      have hrun0 : ((l.drop k).takeWhile url_char).length = 0 := by
        by_contra hcon
        rw [if_neg hcon] at h
        cases h
      have hdrop : (l ++ [c]).drop k = l.drop k ++ [c] :=
        List.drop_append_of_le_length hlen
      cases hd : l.drop k with
      | nil =>
        -- `l` is exactly the scheme
        have hleq : l.length = k := by
          have := List.length_drop k l
          rw [hd] at this
          simp only [List.length_nil] at this
          omega
        have hl_eq : l = "http://".toList ∨ l = "https://".toList := by
          rcases hsch with ⟨hk, hp⟩ | ⟨hk, hp⟩
          · refine Or.inr ((prefix_snoc_of_le c hp (by simp [hleq, hk])).eq_of_length
              (by simp [hleq, hk])).symm
          · refine Or.inl ((prefix_snoc_of_le c hp (by simp [hleq, hk])).eq_of_length
              (by simp [hleq, hk])).symm
        rw [hdrop, hd]
        simp only [List.nil_append]
        by_cases hc : url_char c = true
        · refine Or.inr ⟨hl_eq, k + 1, ?_⟩
          rw [List.takeWhile_cons, if_pos hc]
          rfl
        · refine Or.inl ?_
          rw [List.takeWhile_cons, if_neg hc]
          rfl
      | cons d ds =>
        have hdfalse : url_char d = false := by
          rw [hd, List.takeWhile_cons] at hrun0
          by_cases hud : url_char d = true
          · rw [if_pos hud] at hrun0
            simp at hrun0
          · simpa using hud
        refine Or.inl ?_
        rw [hdrop, hd]
        show (if ((d :: (ds ++ [c])).takeWhile url_char).length = 0 then none
          else some (k + ((d :: (ds ++ [c])).takeWhile url_char).length)) = none
        rw [List.takeWhile_cons, if_neg (show ¬(url_char d = true) by simp [hdfalse])]
        rfl
    · -- the scheme needs the appended character: `l ++ [c]` IS the scheme
      have hdrop : (l ++ [c]).drop k = [] := by
        apply List.drop_eq_nil_of_le
        rcases hsch with ⟨hk, hp⟩ | ⟨hk, hp⟩ <;>
          · have := hp.length_le
            simp only [List.length_append, List.length_cons, List.length_nil] at this ⊢
            omega
      rw [hdrop]
      simp

theorem gwl_snoc_ge : ∀ (l : List Char) (c : Char),
    get_weighted_length l ≤ get_weighted_length (l ++ [c])
  | [], c => by
    rw [gwl_nil]
    exact Nat.zero_le _
  | x :: xs, c => by
    cases hm : match_url (x :: xs) with
    | some n =>
      have hb := match_url_bounds _ _ hm
      rw [gwl_cons_some x xs n hm]
      by_cases hlt : n < (x :: xs).length
      · have hsnoc := match_url_some_snoc_lt (x :: xs) c n hm hlt
        rw [show (x :: xs) ++ [c] = x :: (xs ++ [c]) from rfl] at hsnoc
        rw [show (x :: xs) ++ [c] = x :: (xs ++ [c]) from rfl,
          gwl_cons_some x (xs ++ [c]) n hsnoc]
        have hdrop : (x :: (xs ++ [c])).drop n = ((x :: xs).drop n) ++ [c] := by
          rw [show x :: (xs ++ [c]) = (x :: xs) ++ [c] from rfl]
          exact List.drop_append_of_le_length (by omega)
        rw [hdrop]
        have hrec := gwl_snoc_ge ((x :: xs).drop n) c
        omega
      · have hn : n = (x :: xs).length := by omega
        obtain ⟨m, hm'⟩ := match_url_some_snoc_full (x :: xs) c (hn ▸ hm)
        rw [show (x :: xs) ++ [c] = x :: (xs ++ [c]) from rfl] at hm'
        rw [show (x :: xs) ++ [c] = x :: (xs ++ [c]) from rfl,
          gwl_cons_some x (xs ++ [c]) m hm']
        rw [hn, List.drop_length, gwl_nil]
        omega
    | none =>
      rcases match_url_none_snoc (x :: xs) c hm with hnone | ⟨hsch, m, hsome⟩
      · rw [gwl_cons_none x xs hm]
        rw [show (x :: xs) ++ [c] = x :: (xs ++ [c]) from rfl] at hnone
        rw [show (x :: xs) ++ [c] = x :: (xs ++ [c]) from rfl,
          gwl_cons_none x (xs ++ [c]) hnone]
        have hrec := gwl_snoc_ge xs c
        omega
      · have hw : get_weighted_length (x :: xs) ≤ 8 := by
          rcases hsch with h1 | h1 <;> rw [h1] <;> decide
        rw [show (x :: xs) ++ [c] = x :: (xs ++ [c]) from rfl] at hsome
        rw [show (x :: xs) ++ [c] = x :: (xs ++ [c]) from rfl,
          gwl_cons_some x (xs ++ [c]) m hsome]
        omega
termination_by l _ => l.length
decreasing_by
  all_goals simp only [List.length_drop, List.length_cons]
  all_goals omega

theorem gwl_take_succ (t : List Char) (k : Nat) :
    get_weighted_length (t.take k) ≤ get_weighted_length (t.take (k + 1)) := by
  rw [List.take_succ]
  cases hk : t[k]? with
  | none => simp
  | some a => simpa using gwl_snoc_ge (t.take k) a

theorem gwl_take_mono (t : List Char) (j k : Nat) (h : j ≤ k) :
    get_weighted_length (t.take j) ≤ get_weighted_length (t.take k) := by
  induction k with
  | zero =>
    have : j = 0 := by omega
    subst this
    exact Nat.le_refl _
  | succ k ih =>
    rcases Nat.lt_or_ge j (k + 1) with hlt | hge
    · exact Nat.le_trans (ih (by omega)) (gwl_take_succ t k)
    · have : j = k + 1 := by omega
      subst this
      exact Nat.le_refl _

/-! ### Whitespace collapsing and stripping -/

theorem collapse_nil : collapse_whitespace [] = [] := rfl

theorem collapse_cons_not_space (a : Char) (rest : List Char)
    (h : py_isspace a = false) :
    collapse_whitespace (a :: rest) = a :: collapse_whitespace rest := by
  show (if py_isspace a = true then
      (match rest with
       | [] => [' ']
       | b :: _ => if py_isspace b = true then collapse_whitespace rest
                   else ' ' :: collapse_whitespace rest)
    else a :: collapse_whitespace rest) = a :: collapse_whitespace rest
  rw [if_neg (by simp [h])]

theorem collapse_singleton_space (a : Char) (h : py_isspace a = true) :
    collapse_whitespace [a] = [' '] := by
  show (if py_isspace a = true then [' '] else a :: collapse_whitespace []) = [' ']
  rw [if_pos h]

theorem collapse_cons_space_space (a b : Char) (bs : List Char)
    (ha : py_isspace a = true) (hb : py_isspace b = true) :
    collapse_whitespace (a :: b :: bs) = collapse_whitespace (b :: bs) := by
  show (if py_isspace a = true then
      (if py_isspace b = true then collapse_whitespace (b :: bs)
       else ' ' :: collapse_whitespace (b :: bs))
    else a :: collapse_whitespace (b :: bs)) = collapse_whitespace (b :: bs)
  rw [if_pos ha, if_pos hb]

theorem collapse_cons_space_not_space (a b : Char) (bs : List Char)
    (ha : py_isspace a = true) (hb : py_isspace b = false) :
    collapse_whitespace (a :: b :: bs) = ' ' :: collapse_whitespace (b :: bs) := by
  show (if py_isspace a = true then
      (if py_isspace b = true then collapse_whitespace (b :: bs)
       else ' ' :: collapse_whitespace (b :: bs))
    else a :: collapse_whitespace (b :: bs)) = ' ' :: collapse_whitespace (b :: bs)
  rw [if_pos ha, if_neg (by simp [hb])]

theorem collapse_mem (w : List Char) (c : Char)
    (h : c ∈ collapse_whitespace w) : c ∈ w ∨ c = ' ' := by
  induction w with
  | nil => simp [collapse_nil] at h
  | cons a rest ih =>
    by_cases ha : py_isspace a = true
    · cases rest with
      | nil =>
        rw [collapse_singleton_space a ha] at h
        simp at h
        exact Or.inr h
      | cons b bs =>
        by_cases hb : py_isspace b = true
        · rw [collapse_cons_space_space a b bs ha hb] at h
          rcases ih h with hm | hs
          · exact Or.inl (List.mem_cons_of_mem a hm)
          · exact Or.inr hs
        · rw [collapse_cons_space_not_space a b bs ha (by simpa using hb)] at h
          rcases List.mem_cons.mp h with hc | hc
          · exact Or.inr hc
          · rcases ih hc with hm | hs
            · exact Or.inl (List.mem_cons_of_mem a hm)
            · exact Or.inr hs
    · rw [collapse_cons_not_space a rest (by simpa using ha)] at h
      rcases List.mem_cons.mp h with hc | hc
      · exact Or.inl (hc ▸ List.mem_cons_self a rest)
      · rcases ih hc with hm | hs
        · exact Or.inl (List.mem_cons_of_mem a hm)
        · exact Or.inr hs

theorem collapse_space_mem (w : List Char) (c : Char)
    (hmem : c ∈ collapse_whitespace w) (hsp : py_isspace c = true) : c = ' ' := by
  induction w with
  | nil => simp [collapse_nil] at hmem
  | cons a rest ih =>
    by_cases ha : py_isspace a = true
    · cases rest with
      | nil =>
        rw [collapse_singleton_space a ha] at hmem
        simpa using hmem
      | cons b bs =>
        by_cases hb : py_isspace b = true
        · rw [collapse_cons_space_space a b bs ha hb] at hmem
          exact ih hmem
        · rw [collapse_cons_space_not_space a b bs ha (by simpa using hb)] at hmem
          rcases List.mem_cons.mp hmem with hc | hc
          · exact hc
          · exact ih hc
    · rw [collapse_cons_not_space a rest (by simpa using ha)] at hmem
      rcases List.mem_cons.mp hmem with hc | hc
      · subst hc
        simp [hsp] at ha
      · exact ih hc

theorem single_spaced_tail (a : Char) (l : List Char)
    (h : single_spaced (a :: l) = true) : single_spaced l = true := by
  cases l with
  | nil => rfl
  | cons b bs =>
    unfold single_spaced at h
    exact (Bool.and_eq_true_iff.mp h).2

theorem single_spaced_cons_of_not_space (a : Char) (l : List Char)
    (ha : py_isspace a = false) (h : single_spaced l = true) :
    single_spaced (a :: l) = true := by
  cases l with
  | nil => rfl
  | cons b bs =>
    unfold single_spaced
    rw [Bool.and_eq_true_iff]
    exact ⟨by simp [ha], h⟩

theorem collapse_single_spaced (w : List Char) :
    single_spaced (collapse_whitespace w) = true := by
  induction w with
  | nil => rfl
  | cons a rest ih =>
    by_cases ha : py_isspace a = true
    · cases rest with
      | nil => rw [collapse_singleton_space a ha]; rfl
      | cons b bs =>
        by_cases hb : py_isspace b = true
        · rwa [collapse_cons_space_space a b bs ha hb]
        · rw [collapse_cons_space_not_space a b bs ha (by simpa using hb)]
          rw [collapse_cons_not_space b bs (by simpa using hb)] at ih ⊢
          unfold single_spaced
          rw [Bool.and_eq_true_iff]
          exact ⟨by simp [hb], ih⟩
    · rw [collapse_cons_not_space a rest (by simpa using ha)]
      exact single_spaced_cons_of_not_space a _ (by simpa using ha) ih

theorem collapse_eq_self (z : List Char)
    (hsp : ∀ c ∈ z, py_isspace c = true → c = ' ')
    (hss : single_spaced z = true) : collapse_whitespace z = z := by
  induction z with
  | nil => rfl
  | cons a rest ih =>
    by_cases ha : py_isspace a = true
    · have haeq : a = ' ' := hsp a (List.mem_cons_self a rest) ha
      cases rest with
      | nil => rw [collapse_singleton_space a ha, haeq]
      | cons b bs =>
        have hb : py_isspace b = false := by
          unfold single_spaced at hss
          have := (Bool.and_eq_true_iff.mp hss).1
          simp only [Bool.not_and] at this
          rcases Bool.or_eq_true_iff.mp this with h1 | h1
          · simp [ha] at h1
          · simpa using h1
        rw [collapse_cons_space_not_space a b bs ha hb, haeq]
        rw [ih (fun c hc hc2 => hsp c (List.mem_cons_of_mem a hc) hc2)
          (single_spaced_tail a _ hss)]
    · rw [collapse_cons_not_space a rest (by simpa using ha)]
      rw [ih (fun c hc hc2 => hsp c (List.mem_cons_of_mem a hc) hc2)
        (single_spaced_tail a _ hss)]

theorem single_spaced_append_left (xs ys : List Char)
    (h : single_spaced (xs ++ ys) = true) : single_spaced xs = true := by
  induction xs with
  | nil => rfl
  | cons a rest ih =>
    cases rest with
    | nil => rfl
    | cons b bs =>
      simp only [single_spaced, List.cons_append] at h ⊢
      rw [Bool.and_eq_true_iff] at h ⊢
      exact ⟨h.1, ih h.2⟩

theorem single_spaced_dropWhile (p : Char → Bool) (l : List Char)
    (h : single_spaced l = true) : single_spaced (l.dropWhile p) = true := by
  induction l with
  | nil => rfl
  | cons a rest ih =>
    rw [List.dropWhile_cons]
    by_cases hp : p a = true
    · rw [if_pos hp]
      exact ih (single_spaced_tail a rest h)
    · rw [if_neg hp]
      exact h

theorem dropWhile_self_idem (p : Char → Bool) (m : List Char) :
    (m.dropWhile p).dropWhile p = m.dropWhile p := by
  cases h : m.dropWhile p with
  | nil => rfl
  | cons c cs =>
    rw [List.dropWhile_cons, if_neg (by simp [dropWhile_head_false p m c cs h])]

theorem strip_right_decomposition (l : List Char) :
    ∃ s, l = strip_right l ++ s := by
  obtain ⟨u, hu⟩ := List.dropWhile_suffix (l := l.reverse) py_isspace
  refine ⟨u.reverse, ?_⟩
  unfold strip_right
  have h2 := congrArg List.reverse hu
  rw [List.reverse_append, List.reverse_reverse] at h2
  exact h2.symm

theorem strip_right_mem (l : List Char) (c : Char) (h : c ∈ strip_right l) :
    c ∈ l := by
  obtain ⟨s, hs⟩ := strip_right_decomposition l
  rw [hs]
  exact List.mem_append_left s h

theorem single_spaced_strip_right (l : List Char)
    (h : single_spaced l = true) : single_spaced (strip_right l) = true := by
  obtain ⟨s, hs⟩ := strip_right_decomposition l
  rw [hs] at h
  exact single_spaced_append_left _ s h

theorem strip_right_idem (l : List Char) :
    strip_right (strip_right l) = strip_right l := by
  unfold strip_right
  rw [List.reverse_reverse, dropWhile_self_idem]

theorem strip_right_head (l : List Char) (c : Char) (cs : List Char)
    (h : strip_right l = c :: cs) : ∃ ds, l = c :: ds := by
  obtain ⟨s, hs⟩ := strip_right_decomposition l
  rw [h] at hs
  exact ⟨cs ++ s, hs⟩

theorem strip_left_cons_not_space (c : Char) (cs : List Char)
    (h : py_isspace c = false) : strip_left (c :: cs) = c :: cs := by
  unfold strip_left
  rw [List.dropWhile_cons, if_neg (by simp [h])]

theorem strip_right_ne_nil (c : Char) (cs : List Char)
    (h : py_isspace c = false) : strip_right (c :: cs) ≠ [] := by
  intro hcon
  unfold strip_right at hcon
  have h2 : (c :: cs).reverse.dropWhile py_isspace = [] := by
    have := congrArg List.reverse hcon
    simpa using this
  rw [List.dropWhile_eq_nil_iff] at h2
  have := h2 c (by simp)
  simp [h] at this

theorem strip_right_all_space (l : List Char) (h : strip_right l = [])
    (c : Char) (hc : c ∈ l) : py_isspace c = true := by
  unfold strip_right at h
  have h2 : l.reverse.dropWhile py_isspace = [] := by
    have := congrArg List.reverse h
    simpa using this
  rw [List.dropWhile_eq_nil_iff] at h2
  exact h2 c (by simpa using hc)

/-! ### Invisible-character removal as a filter -/

theorem foldl_filter_ne (chars : List Char) (t : List Char) :
    chars.foldl (fun acc ch => acc.filter (fun c => c != ch)) t
      = t.filter (fun c => !chars.contains c) := by
  induction chars generalizing t with
  | nil => simp
  | cons ch rest ih =>
    show rest.foldl _ (t.filter (fun c => c != ch)) = _
    rw [ih, List.filter_filter]
    apply List.filter_congr
    intro c _
    by_cases hc : c = ch
    · simp [hc]
    · simp [hc, Ne.symm hc]

theorem remove_invisible_eq_filter (t : List Char) :
    remove_invisible_chars t = t.filter (fun c =>
      !INVISIBLE_CHARS.contains c &&
      !(is_category_C c && !(kept_whitespace.contains c))) := by
  unfold remove_invisible_chars
  split
  · rename_i h
    subst h
    rfl
  · rw [foldl_filter_ne, List.filter_filter]
    apply List.filter_congr
    intro c _
    exact Bool.and_comm _ _

theorem mem_remove_invisible (t : List Char) (c : Char)
    (h : c ∈ remove_invisible_chars t) :
    c ∈ t ∧ (!INVISIBLE_CHARS.contains c &&
      !(is_category_C c && !(kept_whitespace.contains c))) = true := by
  rw [remove_invisible_eq_filter, List.mem_filter] at h
  exact h

theorem remove_invisible_eq_self (t : List Char)
    (h : ∀ c ∈ t, (!INVISIBLE_CHARS.contains c &&
      !(is_category_C c && !(kept_whitespace.contains c))) = true) :
    remove_invisible_chars t = t := by
  rw [remove_invisible_eq_filter]
  exact List.filter_eq_self.mpr h

/-! ### Normalization invariants -/

theorem normalize_mem_keep (t : List Char) (c : Char)
    (h : c ∈ normalize_text t) :
    (!INVISIBLE_CHARS.contains c &&
      !(is_category_C c && !(kept_whitespace.contains c))) = true := by
  unfold normalize_text at h
  split at h
  · rename_i ht
    subst ht
    simp at h
  · have h1 : c ∈ strip_left (collapse_whitespace (remove_invisible_chars (nfc t))) :=
      strip_right_mem _ c h
    have h2 : c ∈ collapse_whitespace (remove_invisible_chars (nfc t)) :=
      (List.dropWhile_sublist py_isspace).mem h1
    rcases collapse_mem _ c h2 with h3 | h3
    · exact (mem_remove_invisible _ c h3).2
    · subst h3
      decide

theorem normalize_space_char (t : List Char) (c : Char)
    (h : c ∈ normalize_text t) (hs : py_isspace c = true) : c = ' ' := by
  unfold normalize_text at h
  split at h
  · rename_i ht
    subst ht
    simp at h
  · have h1 : c ∈ strip_left (collapse_whitespace (remove_invisible_chars (nfc t))) :=
      strip_right_mem _ c h
    have h2 : c ∈ collapse_whitespace (remove_invisible_chars (nfc t)) :=
      (List.dropWhile_sublist py_isspace).mem h1
    exact collapse_space_mem _ c h2 hs

theorem normalize_single_spaced (t : List Char) :
    single_spaced (normalize_text t) = true := by
  unfold normalize_text
  split
  · rename_i ht
    subst ht
    rfl
  · exact single_spaced_strip_right _
      (single_spaced_dropWhile py_isspace _ (collapse_single_spaced _))

theorem normalize_head_not_space (t : List Char) (c : Char) (cs : List Char)
    (h : normalize_text t = c :: cs) : py_isspace c = false := by
  unfold normalize_text at h
  split at h
  · rename_i ht
    subst ht
    cases h
  · obtain ⟨ds, hds⟩ := strip_right_head _ c cs h
    exact dropWhile_head_false py_isspace _ c ds hds

theorem py_strip_normalize (t : List Char) :
    py_strip (normalize_text t) = normalize_text t := by
  cases hn : normalize_text t with
  | nil => rfl
  | cons c cs =>
    have hc : py_isspace c = false := normalize_head_not_space t c cs hn
    unfold py_strip
    rw [strip_left_cons_not_space c cs hc]
    -- `strip_right` is idempotent, and `normalize_text t` ends in `strip_right`
    have : strip_right (normalize_text t) = normalize_text t := by
      unfold normalize_text
      split
      · rename_i ht
        subst ht
        rfl
      · exact strip_right_idem _
    rw [← hn, this]

theorem collapse_normalize (t : List Char) :
    collapse_whitespace (normalize_text t) = normalize_text t :=
  collapse_eq_self _ (fun c hc => normalize_space_char t c hc)
    (normalize_single_spaced t)

theorem remove_invisible_normalize (t : List Char) :
    remove_invisible_chars (normalize_text t) = normalize_text t :=
  remove_invisible_eq_self _ (fun c hc => normalize_mem_keep t c hc)

/-- Key helper shared by the idempotence and no-op-truncation results:
whenever the normalized text is a fixed point of (the model of) NFC,
re-normalizing changes nothing. -/
theorem normalize_idem_of_nfc_fixed (t : List Char)
    (h : nfc (normalize_text t) = normalize_text t) :
    normalize_text (normalize_text t) = normalize_text t := by
  have hrem := remove_invisible_normalize t
  have hcol := collapse_normalize t
  have hstr := py_strip_normalize t
  generalize hn0 : normalize_text t = n at h hrem hcol hstr ⊢
  cases n with
  | nil => rfl
  | cons c cs =>
    unfold normalize_text
    rw [if_neg (List.cons_ne_nil c cs), h, hrem, hcol, hstr]

/-! ### NFC on strings without composable material -/

theorem nfc_run_no_e (a : Char) (rest : List Char)
    (ha : a ≠ 'e') (hrest : ∀ c ∈ rest, c ≠ 'e') :
    nfc_run a rest = a :: rest := by
  induction rest generalizing a with
  | nil => rfl
  | cons b bs ih =>
    show (match compose_pair a b with
      | some d => nfc_run d bs
      | none => a :: nfc_run b bs) = a :: b :: bs
    have hcp : compose_pair a b = none := by
      unfold compose_pair
      rw [if_neg]
      intro hcon
      exact ha hcon.1
    rw [hcp]
    rw [ih b (hrest b (List.mem_cons_self b bs)) (fun c hc => hrest c (List.mem_cons_of_mem b hc))]

theorem nfc_no_e (l : List Char) (h : ∀ c ∈ l, c ≠ 'e') : nfc l = l := by
  cases l with
  | nil => rfl
  | cons a rest =>
    show nfc_run a rest = a :: rest
    exact nfc_run_no_e a rest (h a (List.mem_cons_self a rest))
      (fun c hc => h c (List.mem_cons_of_mem a hc))

/-! ### Whitespace-only inputs normalize to the empty string -/

theorem collapse_all_space (w : List Char) (h : ∀ c ∈ w, py_isspace c = true) :
    collapse_whitespace w = [] ∨ collapse_whitespace w = [' '] := by
  induction w with
  | nil => exact Or.inl rfl
  | cons a rest ih =>
    have ha : py_isspace a = true := h a (List.mem_cons_self a rest)
    cases rest with
    | nil => exact Or.inr (collapse_singleton_space a ha)
    | cons b bs =>
      have hb : py_isspace b = true := h b (by simp)
      rw [collapse_cons_space_space a b bs ha hb]
      exact ih (fun c hc => h c (List.mem_cons_of_mem a hc))

theorem normalize_all_space (t : List Char) (h : ∀ c ∈ t, py_isspace c = true) :
    normalize_text t = [] := by
  unfold normalize_text
  split
  · rename_i ht
    exact ht
  · have hnfc : nfc t = t := by
      apply nfc_no_e
      intro c hc hce
      have := h c hc
      rw [hce] at this
      exact absurd this (by decide)
    rw [hnfc]
    have hrem : ∀ c ∈ remove_invisible_chars t, py_isspace c = true := by
      intro c hc
      exact h c (mem_remove_invisible t c hc).1
    rcases collapse_all_space _ hrem with hc | hc <;> rw [hc] <;> decide

/-! ### Line splitting, word splitting and joining -/

theorem split_newline_length_one (l : List Char) (h : ¬('\n' ∈ l)) :
    (split_newline l).length = 1 := by
  induction l with
  | nil => rfl
  | cons c cs ih =>
    have hc : c ≠ '\n' := fun hcon => h (hcon ▸ List.mem_cons_self c cs)
    have hcs : ¬('\n' ∈ cs) := fun hcon => h (List.mem_cons_of_mem c hcon)
    show (match split_newline cs with
      | [] => [[c]]
      | h :: t => if c = '\n' then [] :: h :: t else (c :: h) :: t).length = 1
    cases hsp : split_newline cs with
    | nil => rfl
    | cons w ws =>
      have hlen := ih hcs
      rw [hsp] at hlen
      simp only [List.length_cons] at hlen
      show ((if c = '\n' then [] :: w :: ws else (c :: w) :: ws)).length = 1
      rw [if_neg hc]
      simp only [List.length_cons]
      omega

theorem py_split_sound : ∀ (l : List Char) (w : List Char), w ∈ py_split l →
    w ≠ [] ∧ ∀ c ∈ w, py_isspace c = false
  | l, w => by
    intro hw
    cases hd : l.dropWhile py_isspace with
    | nil =>
      rw [py_split_eq_nil l hd] at hw
      simp at hw
    | cons c cs =>
      have hc : py_isspace c = false := dropWhile_head_false _ l c cs hd
      have hlen : (c :: cs).length ≤ l.length :=
        hd ▸ (List.dropWhile_sublist (l := l) py_isspace).length_le
      have hw1 : 0 < ((c :: cs).takeWhile (fun x => !py_isspace x)).length := by
        rw [List.takeWhile_cons]
        simp [hc]
      rw [py_split_eq_cons l c cs hd] at hw
      rcases List.mem_cons.mp hw with hweq | hwmem
      · subst hweq
        refine ⟨?_, ?_⟩
        · rw [List.takeWhile_cons, if_pos (by simp [hc])]
          exact List.cons_ne_nil _ _
        · intro x hx
          have := List.mem_takeWhile_imp hx
          simpa using this
      · exact py_split_sound _ w hwmem
termination_by l _ => l.length
decreasing_by
  simp only [List.length_drop, List.length_cons] at *
  omega

theorem py_join_head (sep : Char) (c : Char) (cs : List Char)
    (rest : List (List Char)) :
    ∃ ds, py_join sep ((c :: cs) :: rest) = c :: ds := by
  cases rest with
  | nil => exact ⟨cs, rfl⟩
  | cons w ws => exact ⟨cs ++ sep :: py_join sep (w :: ws), rfl⟩

theorem getLastD_mem {α : Type} (l : List α) (d : α) (h : l ≠ []) :
    l.getLastD d ∈ l := by
  induction l generalizing d with
  | nil => exact absurd rfl h
  | cons a as ih =>
    rw [List.getLastD_cons]
    cases as with
    | nil => simp [List.getLastD]
    | cons b bs => exact List.mem_cons_of_mem a (ih a (List.cons_ne_nil b bs))

/-! ### The trailing-URL split on normalized text -/

theorem trailing_split_eq (n : List Char) (m u p : List Char)
    (hnl : (split_newline n).length = 1)
    (hs : trailing_split n = some (m, u, p)) :
    u = ' ' :: p ∧ 2 ≤ (py_split n).length ∧
    p = (py_split n).getLastD [] ∧ m = py_join ' ' (py_split n).dropLast ∧
    (match_url p).isSome = true := by
  simp only [trailing_split] at hs
  rw [if_neg (by omega)] at hs
  split at hs
  · rename_i h2
    split at hs
    · rename_i hsome
      injection hs with hs1
      rw [Prod.mk.injEq, Prod.mk.injEq] at hs1
      obtain ⟨hm, hu, hp⟩ := hs1
      subst hm
      subst hu
      subst hp
      exact ⟨rfl, h2, rfl, rfl, hsome⟩
    · cases hs
  · cases hs

theorem trailing_split_main_head (n : List Char) (m u p : List Char)
    (hnl : (split_newline n).length = 1)
    (hs : trailing_split n = some (m, u, p)) :
    ∃ c cs, m = c :: cs ∧ py_isspace c = false := by
  obtain ⟨-, h2, -, hm, -⟩ := trailing_split_eq n m u p hnl hs
  cases hw : py_split n with
  | nil => rw [hw] at h2; simp at h2
  | cons w0 rest =>
    cases rest with
    | nil => rw [hw] at h2; simp at h2
    | cons w1 t =>
      have hw0 := py_split_sound n w0 (by rw [hw]; exact List.mem_cons_self _ _)
      obtain ⟨hne, hnospace⟩ := hw0
      cases hw0c : w0 with
      | nil => exact absurd hw0c hne
      | cons c0 cs0 =>
        have hdl : (py_split n).dropLast = w0 :: (w1 :: t).dropLast := by
          rw [hw]
          rfl
        rw [hdl, hw0c] at hm
        obtain ⟨ds, hds⟩ := py_join_head ' ' c0 cs0 (w1 :: t).dropLast
        refine ⟨c0, ds, by rw [hm, hds], ?_⟩
        exact hnospace c0 (by rw [hw0c]; exact List.mem_cons_self _ _)

theorem trailing_split_p_no_space (n : List Char) (m u p : List Char)
    (hnl : (split_newline n).length = 1)
    (hs : trailing_split n = some (m, u, p)) :
    p ≠ [] ∧ ∀ c ∈ p, py_isspace c = false := by
  obtain ⟨-, h2, hp, -, -⟩ := trailing_split_eq n m u p hnl hs
  have hpm : p ∈ py_split n := by
    rw [hp]
    apply getLastD_mem
    intro hcon
    rw [hcon] at h2
    simp at h2
  exact py_split_sound n p hpm

/-! ### Binary-search correctness -/

theorem bs_go_spec (f : Nat → Int) (t : Int) (len : Nat)
    (mono : ∀ i j, i ≤ j → f i ≤ f j) :
    ∀ (fuel left : Nat) (right : Int) (best : Nat),
      right ≤ (len : Int) →
      (right + 1 - (left : Int)).toNat ≤ fuel →
      f best ≤ t → best ≤ len →
      (∀ k : Nat, k ≤ len → f k ≤ t → (k : Int) < (left : Int) → k ≤ best) →
      (∀ k : Nat, k ≤ len → f k ≤ t → ((k : Int) < (left : Int) ∨ (k : Int) ≤ right)) →
      (bs_go f t fuel left right best ≤ len ∧
       f (bs_go f t fuel left right best) ≤ t ∧
       ∀ k : Nat, k ≤ len → f k ≤ t → k ≤ bs_go f t fuel left right best) := by
  intro fuel
  induction fuel with
  | zero =>
    intro left right best h2 h3 h4 h5 h6 h7
    refine ⟨h5, h4, ?_⟩
    intro k hk hfk
    rcases h7 k hk hfk with hlt | hle
    · exact h6 k hk hfk hlt
    · exact h6 k hk hfk (by omega)
  | succ fuel ih =>
    intro left right best h2 h3 h4 h5 h6 h7
    rw [bs_go]
    by_cases hlr : (left : Int) ≤ right
    · rw [if_pos hlr]
      have hmid_ge : left ≤ ((left : Int) + right).toNat / 2 := by omega
      have hmid_le : ((((left : Int) + right).toNat / 2 : Nat) : Int) ≤ right := by
        omega
      by_cases hf : f (((left : Int) + right).toNat / 2) ≤ t
      · rw [if_pos hf]
        refine ih (((left : Int) + right).toNat / 2 + 1) right
          (((left : Int) + right).toNat / 2) h2 (by omega) hf (by omega) ?_ ?_
        · intro k hk hfk hklt
          omega
        · intro k hk hfk
          rcases h7 k hk hfk with h | h
          · exact Or.inl (by omega)
          · exact Or.inr h
      · rw [if_neg hf]
        refine ih left ((((left : Int) + right).toNat / 2 : Nat) - 1) best
          (by omega) (by omega) h4 h5 h6 ?_
        intro k hk hfk
        rcases h7 k hk hfk with h | h
        · exact Or.inl h
        · by_cases hkm : ((left : Int) + right).toNat / 2 ≤ k
          · exact absurd (le_trans (mono _ k hkm) hfk) hf
          · exact Or.inr (by omega)
    · rw [if_neg hlr]
      refine ⟨h5, h4, ?_⟩
      intro k hk hfk
      rcases h7 k hk hfk with hlt | hle
      · exact h6 k hk hfk hlt
      · exact h6 k hk hfk (by omega)

theorem binary_search_best_spec (f : Nat → Int) (t : Int) (len : Nat)
    (mono : ∀ i j, i ≤ j → f i ≤ f j) (h0 : f 0 ≤ t) :
    binary_search_best f t len ≤ len ∧ f (binary_search_best f t len) ≤ t ∧
      ∀ k : Nat, k ≤ len → f k ≤ t → k ≤ binary_search_best f t len := by
  unfold binary_search_best
  refine bs_go_spec f t len mono (len + 1) 0 (len : Int) 0 (Int.le_refl _)
    (by omega) h0 (Nat.zero_le _) ?_ ?_
  · intro k hk hfk hlt
    omega
  · intro k hk hfk
    exact Or.inr (by omega)

/-! ### Strings without whitespace are strip-invariant -/

theorem dropWhile_eq_self_of_head_false (p : Char → Bool) (l : List Char)
    (h : ∀ c ∈ l, p c = false) : l.dropWhile p = l := by
  cases l with
  | nil => rfl
  | cons c cs =>
    rw [List.dropWhile_cons, if_neg (by simp [h c (List.mem_cons_self c cs)])]

theorem strip_left_of_no_space (l : List Char)
    (h : ∀ c ∈ l, py_isspace c = false) : strip_left l = l :=
  dropWhile_eq_self_of_head_false py_isspace l h

theorem strip_right_of_no_space (l : List Char)
    (h : ∀ c ∈ l, py_isspace c = false) : strip_right l = l := by
  unfold strip_right
  rw [dropWhile_eq_self_of_head_false py_isspace l.reverse
    (fun c hc => h c (List.mem_reverse.mp hc))]
  exact List.reverse_reverse l

theorem py_strip_sep_url (p : List Char)
    (h : ∀ c ∈ p, py_isspace c = false) : py_strip (' ' :: p) = p := by
  unfold py_strip
  have h1 : strip_left (' ' :: p) = strip_left p := by
    unfold strip_left
    rw [List.dropWhile_cons, if_pos (by decide)]
  rw [h1, strip_left_of_no_space p h, strip_right_of_no_space p h]

/-! ### Unfolding `truncate_to_limit` in trailing-URL mode -/

theorem truncate_unfold_trailing (text : List Char) (max_length : Nat)
    (m u p : List Char)
    (hv : (validate_tweet_length (normalize_text text) max_length).is_valid = false)
    (hs : trailing_split (normalize_text text) = some (m, u, p)) :
    truncate_to_limit text max_length =
      (if ((max_length : Int) - (calculate_weighted_length u).weighted_length -
            (calculate_weighted_length ['…']).weighted_length) ≤ 0 then
        { text := p, was_truncated := true,
          final_length := (calculate_weighted_length p).weighted_length }
      else
        { text :=
            (if strip_right (m.take (binary_search_best
                (fun k => ((calculate_weighted_length (m.take k)).weighted_length : Int))
                ((max_length : Int) - (calculate_weighted_length u).weighted_length -
                  (calculate_weighted_length ['…']).weighted_length) m.length)) = []
             then py_strip u
             else strip_right (m.take (binary_search_best
                (fun k => ((calculate_weighted_length (m.take k)).weighted_length : Int))
                ((max_length : Int) - (calculate_weighted_length u).weighted_length -
                  (calculate_weighted_length ['…']).weighted_length) m.length)) ++
               ['…'] ++ u)
          was_truncated := true
          final_length := (calculate_weighted_length
            (if strip_right (m.take (binary_search_best
                (fun k => ((calculate_weighted_length (m.take k)).weighted_length : Int))
                ((max_length : Int) - (calculate_weighted_length u).weighted_length -
                  (calculate_weighted_length ['…']).weighted_length) m.length)) = []
             then py_strip u
             else strip_right (m.take (binary_search_best
                (fun k => ((calculate_weighted_length (m.take k)).weighted_length : Int))
                ((max_length : Int) - (calculate_weighted_length u).weighted_length -
                  (calculate_weighted_length ['…']).weighted_length) m.length)) ++
               ['…'] ++ u)).weighted_length }) := by
  simp only [truncate_to_limit]
  rw [if_neg (by simp [hv]), hs]

/-! ### Claim C9 -/

/-- Claim C9 (amended): in trailing-URL truncation mode, if
`available = max_length - weight(separator + URL) - weight(ellipsis)` is not
positive the result is the bare URL with all lead text dropped; and the bare
URL (no ellipsis, body discarded) is returned exactly when `available ≤ 0`
OR no nonempty prefix of the lead text fits, i.e. the weight of the first
lead character already exceeds `available` (the binary search then lands on
`best_pos = 0` and the empty truncated main also yields the bare URL). -/
theorem c9_amended (text : List Char) (max_length : Nat) (m u p : List Char)
    (hv : (validate_tweet_length (normalize_text text) max_length).is_valid = false)
    (hs : trailing_split (normalize_text text) = some (m, u, p)) :
    ((max_length : Int) - get_weighted_length u - get_weighted_length ['…'] ≤ 0 →
      (truncate_to_limit text max_length).text = p) ∧
    ((truncate_to_limit text max_length).text = p ↔
      ((max_length : Int) - get_weighted_length u - get_weighted_length ['…'] ≤ 0 ∨
       ((get_weighted_length (m.take 1) : Int) >
         (max_length : Int) - get_weighted_length u - get_weighted_length ['…']))) := by
  have h1 : ¬('\n' ∈ normalize_text text) := by
    intro hcon
    have := normalize_space_char text '\n' hcon (by decide)
    exact absurd this (by decide)
  have hnl := split_newline_length_one _ h1
  obtain ⟨hu, h2w, hplast, hmjoin, hpmatch⟩ := trailing_split_eq _ m u p hnl hs
  obtain ⟨c0, ms, hm, hc0⟩ := trailing_split_main_head _ m u p hnl hs
  obtain ⟨hpne, hpns⟩ := trailing_split_p_no_space _ m u p hnl hs
  rw [truncate_unfold_trailing text max_length m u p hv hs]
  have hgwl : ∀ x : List Char,
      (calculate_weighted_length x).weighted_length = get_weighted_length x :=
    fun _ => rfl
  simp only [hgwl]
  by_cases havail : ((max_length : Int) - get_weighted_length u -
      get_weighted_length ['…'] ≤ 0)
  · rw [if_pos havail]
    exact ⟨fun _ => rfl, ⟨fun _ => Or.inl havail, fun _ => rfl⟩⟩
  · rw [if_neg havail]
    have hmono : ∀ i j, i ≤ j →
        ((get_weighted_length (m.take i) : Int)) ≤
        ((get_weighted_length (m.take j) : Int)) := by
      intro i j hij
      exact_mod_cast gwl_take_mono m i j hij
    have h0 : ((get_weighted_length (m.take 0) : Int)) ≤
        (max_length : Int) - get_weighted_length u - get_weighted_length ['…'] := by
      rw [List.take_zero]
      show ((get_weighted_length ([] : List Char) : Int)) ≤ _
      rw [gwl_nil]
      omega
    obtain ⟨hBle, hBfeas, hBmax⟩ := binary_search_best_spec
      (fun k => ((get_weighted_length (m.take k) : Int)))
      ((max_length : Int) - get_weighted_length u - get_weighted_length ['…'])
      m.length hmono h0
    set B := binary_search_best
      (fun k => ((get_weighted_length (m.take k) : Int)))
      ((max_length : Int) - get_weighted_length u - get_weighted_length ['…'])
      m.length with hBdef
    have hm_len : 1 ≤ m.length := by
      rw [hm]
      simp
    by_cases hB0 : B = 0
    · have hS : strip_right (m.take B) = [] := by
        rw [hB0, List.take_zero]
        rfl
      rw [if_pos hS]
      have htext : py_strip u = p := by
        rw [hu]
        exact py_strip_sep_url p hpns
      have hf1 : (get_weighted_length (m.take 1) : Int) >
          (max_length : Int) - get_weighted_length u - get_weighted_length ['…'] := by
        by_contra hcon
        push_neg at hcon
        have := hBmax 1 hm_len hcon
        omega
      exact ⟨fun _ => htext, ⟨fun _ => Or.inr hf1, fun _ => htext⟩⟩
    · have hB1 : 1 ≤ B := Nat.one_le_iff_ne_zero.mpr hB0
      have hShead : m.take B = c0 :: ms.take (B - 1) := by
        rw [hm]
        cases hBcase : B with
        | zero => exact absurd hBcase hB0
        | succ b => rfl
      have hSne : strip_right (m.take B) ≠ [] := by
        rw [hShead]
        exact strip_right_ne_nil c0 _ hc0
      rw [if_neg hSne]
      have hlen_ne : strip_right (m.take B) ++ ['…'] ++ u ≠ p := by
        intro hcon
        have hlen := congrArg List.length hcon
        rw [hu] at hlen
        simp only [List.length_append, List.length_cons] at hlen
        have hSpos : 1 ≤ (strip_right (m.take B)).length := by
          cases hSdec : strip_right (m.take B) with
          | nil => exact absurd hSdec hSne
          | cons a as => simp
        omega
      have hf1le : ¬((get_weighted_length (m.take 1) : Int) >
          (max_length : Int) - get_weighted_length u - get_weighted_length ['…']) := by
        push_neg
        have hstep : (get_weighted_length (m.take 1) : Int) ≤
            ((get_weighted_length (m.take B) : Int)) := by
          exact_mod_cast gwl_take_mono m 1 B hB1
        exact le_trans hstep hBfeas
      refine ⟨fun hcon => absurd hcon havail, ⟨fun hcon => absurd hcon hlen_ne, ?_⟩⟩
      intro hcon
      rcases hcon with h | h
      · exact absurd h havail
      · exact absurd h hf1le

/-! ### Claim C1 -/

set_option maxRecDepth 20000 in
/-- Claim C1: the truncation postcondition
`weighted_length(truncate(text, max_length).text) ≤ max_length` for
`max_length ≥ 23` (except the documented lone-URL-over-budget case) is
violated by the code: on this input the binary search cuts the lead text
right after a bare `https://` fragment, the appended ellipsis merges with it
into a fresh URL match worth 23, and the returned text weighs 49 > 40 even
though the mandatory trailing URL alone weighs only 23 ≤ 40. -/
theorem c1_truncation_postcondition_violated :
    get_weighted_length
        (truncate_to_limit "a https://bbbb https://e.com".toList 40).text = 49 ∧
    ¬(get_weighted_length
        (truncate_to_limit "a https://bbbb https://e.com".toList 40).text ≤ 40) ∧
    get_weighted_length "https://e.com".toList = 23 ∧
    get_weighted_length "https://e.com".toList ≤ 40 ∧ 23 ≤ 40 := by decide

/-! ### Claim C2 -/

set_option maxRecDepth 20000 in
/-- Claim C2 (counterexample): on `"あ"*200 ++ "\n" ++ URL` with limit 280 the
claim asserts the URL is preserved on its own line (the newline separator
survives); in fact normalization collapses the newline to a space, so the
truncated result contains no newline at all. -/
theorem c2_counterexample :
    ¬('\n' ∈ (truncate_to_limit
      (List.replicate 200 'あ' ++ '\n' :: "https://example.com/x".toList)
      280).text) := by decide

set_option maxRecDepth 20000 in
/-- Claim C2 (amended): `truncate_to_limit ("あ"*200 ++ "\n" ++ URL) 280`
preserves the full URL, but attached by a single space (the newline is
normalized away), truncating the leading Japanese run to 127 characters with
the ellipsis placed immediately before the space and URL; the final weighted
length is exactly 280. -/
theorem c2_amended :
    truncate_to_limit
        (List.replicate 200 'あ' ++ '\n' :: "https://example.com/x".toList) 280 =
      { text := List.replicate 127 'あ' ++ '…' :: ' ' :: "https://example.com/x".toList
        was_truncated := true
        final_length := 280 } := by decide

/-! ### Claim C3 -/

/-- Claim C3 (counterexample): the public `get_weighted_length` does NOT
normalize, so the zero-width space (U+200B, inside the weight-1 range
U+2000-U+200D) contributes weight 1: the two values are 11 and 10. -/
theorem c3_counterexample :
    get_weighted_length "AI\u200Bニュース".toList ≠
      get_weighted_length "AIニュース".toList := by decide

/-- Claim C3 (amended): after normalization — as performed by
`validate_tweet_length` — the zero-width space is stripped and the two
inputs have equal weighted length 10; the raw `get_weighted_length`, which
skips normalization, yields 11 versus 10. -/
theorem c3_amended :
    (validate_tweet_length "AI\u200Bニュース".toList 280).weighted_length =
      (validate_tweet_length "AIニュース".toList 280).weighted_length ∧
    (validate_tweet_length "AI\u200Bニュース".toList 280).weighted_length = 10 ∧
    get_weighted_length "AI\u200Bニュース".toList = 11 := by decide

/-! ### Claim C4 -/

/-- Claim C4 (counterexample): the plain sum of the three breakdown fields
(weight-1 count, weight-2 count, URL weight) does not equal the weighted
length: for "あ" the fields are 0, 1, 0 and sum to 1, while the weighted
length is 2. -/
theorem c4_counterexample :
    (calculate_weighted_length ['あ']).weight_1 +
      (calculate_weighted_length ['あ']).weight_2 +
      (calculate_weighted_length ['あ']).urls ≠
      (calculate_weighted_length ['あ']).weighted_length := by decide

/-- Claim C4 (amended): for every input, the breakdown determines the
weighted length by `weight_1 + 2 * weight_2 + urls`, where the `urls` field
is `23 * url_count`. -/
theorem c4_breakdown_sums (text : List Char) :
    (calculate_weighted_length text).weight_1 +
      2 * (calculate_weighted_length text).weight_2 +
      (calculate_weighted_length text).urls =
      (calculate_weighted_length text).weighted_length ∧
    (calculate_weighted_length text).urls =
      23 * (calculate_weighted_length text).url_count := by
  unfold calculate_weighted_length
  split
  · exact ⟨rfl, rfl⟩
  · dsimp only
    exact ⟨by omega, by omega⟩

/-! ### Claim C5 -/

/-- Claim C5: the weighted length is monotonically non-decreasing in prefix
length, including across URL-match boundaries: for every `j ≤ k ≤ length`,
`weighted_length (take j text) ≤ weighted_length (take k text)`. -/
theorem c5_weighted_length_monotone (t : List Char) (j k : Nat)
    (hjk : j ≤ k) (hk : k ≤ t.length) :
    get_weighted_length (t.take j) ≤ get_weighted_length (t.take k) :=
  gwl_take_mono t j k hjk

/-- Witness for C5 at a prefix pair straddling a URL-match boundary. -/
theorem c5_witness :
    3 ≤ 9 ∧ 9 ≤ "https://e.com".toList.length ∧
    get_weighted_length ("https://e.com".toList.take 3) ≤
      get_weighted_length ("https://e.com".toList.take 9) :=
  ⟨by decide, by decide,
    c5_weighted_length_monotone "https://e.com".toList 3 9 (by decide) (by decide)⟩

/-! ### Claim C6 -/

/-- Claim C6 (counterexample): normalization is not idempotent.  For
e + ZWNJ + COMBINING ACUTE, the first pass leaves e + acute (ZWNJ blocks NFC
composition, then the invisible-character step deletes the ZWNJ); the second
pass re-runs NFC on the now-adjacent pair and composes it to é. -/
theorem c6_counterexample :
    normalize_text (normalize_text "e\u200C\u0301".toList) ≠
      normalize_text "e\u200C\u0301".toList := by decide

/-- Claim C6 (amended): normalization is idempotent on every input whose
normalized form is a fixed point of NFC; in general removing an invisible
character can expose a newly composable pair, as the counterexample shows. -/
theorem c6_amended (x : List Char)
    (h : nfc (normalize_text x) = normalize_text x) :
    normalize_text (normalize_text x) = normalize_text x :=
  normalize_idem_of_nfc_fixed x h

/-- Witness for C6 at an NFC-stable input. -/
theorem c6_witness :
    nfc (normalize_text "a b".toList) = normalize_text "a b".toList ∧
    normalize_text (normalize_text "a b".toList) = normalize_text "a b".toList :=
  ⟨by decide, c6_amended "a b".toList (by decide)⟩

/-! ### Claim C7 -/

/-- Claim C7 (counterexample): for e + ZWNJ + COMBINING ACUTE the weighted
length of the normalized text is 2 ≤ 280, yet `truncate_to_limit` reports
`final_length = 1`, not 2: the already-valid path re-normalizes internally
(via `validate_tweet_length`), and the second normalization composes the
pair to é (weight 1).  The claim as stated is therefore false. -/
theorem c7_counterexample :
    get_weighted_length (normalize_text "e\u200C\u0301".toList) ≤ 280 ∧
    (truncate_to_limit "e\u200C\u0301".toList 280).final_length ≠
      get_weighted_length (normalize_text "e\u200C\u0301".toList) := by decide

/-- Claim C7 (amended): provided the normalized text is a fixed point of
NFC, if `weighted_length (normalize text) ≤ max_length` then truncation
returns exactly the normalized text, with `was_truncated = false` and
`final_length` equal to that weighted length. -/
theorem c7_amended (text : List Char) (max_length : Nat)
    (hfix : nfc (normalize_text text) = normalize_text text)
    (h : get_weighted_length (normalize_text text) ≤ max_length) :
    truncate_to_limit text max_length =
      { text := normalize_text text
        was_truncated := false
        final_length := get_weighted_length (normalize_text text) } := by
  have hidem := normalize_idem_of_nfc_fixed text hfix
  have hval : (validate_tweet_length (normalize_text text) max_length).is_valid =
      decide (get_weighted_length (normalize_text (normalize_text text)) ≤ max_length) := rfl
  have hwl : (validate_tweet_length (normalize_text text) max_length).weighted_length =
      get_weighted_length (normalize_text (normalize_text text)) := rfl
  rw [hidem] at hval hwl
  simp only [truncate_to_limit]
  rw [if_pos (show (validate_tweet_length (normalize_text text) max_length).is_valid = true by
    rw [hval]
    exact decide_eq_true h)]
  rw [hwl]

/-- Witness for C7 at a plain ASCII input under the default limit. -/
theorem c7_witness :
    nfc (normalize_text "hello".toList) = normalize_text "hello".toList ∧
    get_weighted_length (normalize_text "hello".toList) ≤ 280 ∧
    truncate_to_limit "hello".toList 280 =
      { text := normalize_text "hello".toList
        was_truncated := false
        final_length := get_weighted_length (normalize_text "hello".toList) } :=
  ⟨by decide, by decide, c7_amended "hello".toList 280 (by decide) (by decide)⟩

/-! ### Claim C8 -/

/-- Claim C8: validation is total (every input yields a well-formed result;
in this model `validate_tweet_length` is a total function) with
`is_valid ↔ weighted_length ≤ max_length` and
`chars_over = max(0, weighted_length - max_length)` (truncated subtraction),
and every whitespace-only input — including the empty string — validates as
trivially valid with weighted length 0. -/
theorem c8_validation_total (text : List Char) (max_length : Nat) :
    ((validate_tweet_length text max_length).is_valid = true ↔
      (validate_tweet_length text max_length).weighted_length ≤ max_length) ∧
    (validate_tweet_length text max_length).chars_over =
      (validate_tweet_length text max_length).weighted_length - max_length ∧
    ((∀ c ∈ text, py_isspace c = true) →
      (validate_tweet_length text max_length).is_valid = true ∧
      (validate_tweet_length text max_length).weighted_length = 0) := by
  refine ⟨⟨fun h => of_decide_eq_true h, fun h => decide_eq_true h⟩, rfl, ?_⟩
  intro hsp
  have hn := normalize_all_space text hsp
  constructor
  · show decide (get_weighted_length (normalize_text text) ≤ max_length) = true
    rw [hn]
    exact decide_eq_true (by rw [gwl_nil]; exact Nat.zero_le _)
  · show get_weighted_length (normalize_text text) = 0
    rw [hn]
    rfl

/-- Witness for C8 at a whitespace-only input. -/
theorem c8_witness :
    (∀ c ∈ " \t ".toList, py_isspace c = true) ∧
    (validate_tweet_length " \t ".toList 280).is_valid = true ∧
    (validate_tweet_length " \t ".toList 280).weighted_length = 0 :=
  ⟨by decide, (c8_validation_total " \t ".toList 280).2.2 (by decide)⟩

/-! ### Claim C10 -/

/-- Claim C10: the output of `normalize_text` never contains a newline,
carriage return or tab (every whitespace run becomes a single space), hence
`split('\n')` of a normalized text always has exactly one piece, the
URL-on-separate-line branch of `truncate_to_limit` is dead code, and any
detected trailing URL is re-attached with a single space separator. -/
theorem c10_no_newline_in_normalized (t : List Char) :
    (¬('\n' ∈ normalize_text t) ∧ ¬('\r' ∈ normalize_text t) ∧
      ¬('\t' ∈ normalize_text t)) ∧
    (split_newline (normalize_text t)).length = 1 ∧
    (∀ m u p, trailing_split (normalize_text t) = some (m, u, p) →
      u = ' ' :: p) := by
  have hsp : ∀ c ∈ normalize_text t, py_isspace c = true → c = ' ' :=
    fun c hc => normalize_space_char t c hc
  have h1 : ¬('\n' ∈ normalize_text t) := by
    intro hcon
    have := hsp '\n' hcon (by decide)
    exact absurd this (by decide)
  have h2 : ¬('\r' ∈ normalize_text t) := by
    intro hcon
    have := hsp '\r' hcon (by decide)
    exact absurd this (by decide)
  have h3 : ¬('\t' ∈ normalize_text t) := by
    intro hcon
    have := hsp '\t' hcon (by decide)
    exact absurd this (by decide)
  have hnl := split_newline_length_one _ h1
  refine ⟨⟨h1, h2, h3⟩, hnl, ?_⟩
  intro m u p hs
  exact (trailing_split_eq _ m u p hnl hs).1

/-- Witness for C10: a concrete text whose normalization triggers the
trailing-URL split, with the separator being a space. -/
theorem c10_witness :
    trailing_split (normalize_text "aa\nhttps://bb".toList) =
      some ("aa".toList, ' ' :: "https://bb".toList, "https://bb".toList) ∧
    (' ' :: "https://bb".toList) = ' ' :: "https://bb".toList :=
  ⟨by decide, (c10_no_newline_in_normalized "aa\nhttps://bb".toList).2.2
    "aa".toList (' ' :: "https://bb".toList) "https://bb".toList (by decide)⟩

/-! ### Remaining artifacts for claim C9 -/

set_option maxRecDepth 20000 in
/-- Claim C9 (counterexample): on "ああ https://e.com" with limit 27 the
available budget is 27 - 24 - 2 = 1 > 0, yet the result is the bare URL with
no ellipsis and the whole lead text discarded (the binary search finds no
nonempty fitting prefix, `best_pos = 0`) — so `available ≤ 0` is not the
only situation producing the bare URL. -/
theorem c9_counterexample :
    trailing_split (normalize_text "ああ https://e.com".toList) =
      some ("ああ".toList, ' ' :: "https://e.com".toList, "https://e.com".toList) ∧
    (0 : Int) < (27 : Int) - get_weighted_length (' ' :: "https://e.com".toList) -
      get_weighted_length ['…'] ∧
    (truncate_to_limit "ああ https://e.com".toList 27).text =
      "https://e.com".toList := by decide

/-- Witness for C9 at the same input: both hypotheses discharged concretely,
both conclusions instantiated. -/
theorem c9_witness :
    ((27 : Int) - get_weighted_length (' ' :: "https://e.com".toList) -
        get_weighted_length ['…'] ≤ 0 →
      (truncate_to_limit "ああ https://e.com".toList 27).text =
        "https://e.com".toList) ∧
    ((truncate_to_limit "ああ https://e.com".toList 27).text =
        "https://e.com".toList ↔
      ((27 : Int) - get_weighted_length (' ' :: "https://e.com".toList) -
          get_weighted_length ['…'] ≤ 0 ∨
       ((get_weighted_length ("ああ".toList.take 1) : Int) >
         (27 : Int) - get_weighted_length (' ' :: "https://e.com".toList) -
           get_weighted_length ['…']))) :=
  c9_amended "ああ https://e.com".toList 27 "ああ".toList
    (' ' :: "https://e.com".toList) "https://e.com".toList
    (by decide) (by decide)

end TwitterText
